import Mathlib

/-!
# Verification of the juju cluster profile (`sos/collector/clusters/juju.py`)

A shallow embedding of the status-indexing and filtering engine of the
`juju` cluster profile: option-string parsing, the output normalizer
(`_cleanup_juju_output`), the three-pass status indexer
(`_add_principals_to_index`, `_add_subordinates_to_index`,
`_add_machines_to_index`), the status fetcher (`_execute_juju_status`),
the two filter functions (`_filter_by_pattern`, `_filter_by_fixed`) and
the node-list assembly (`get_nodes`), together with theorems settling the
specified properties.

Strings are modelled as Lean `String`s; the character-level functions work
on `List Char` (the `data` of a `String`).  Python dictionaries are
modelled as association lists with unique keys kept in insertion order
(`dget` is lookup; `dset` is `d[k] = v`: it replaces the value in place if
the key is present and appends the pair otherwise, exactly Python's
assignment on a `dict`).  Fallible dictionary indexing (`d[k]`, which
raises `KeyError` when absent) is modelled with `Option`.
-/

namespace JujuSpec

/-- Python `d[k]` on an association list: the value of the first entry with
key `k`, `none` when no entry has key `k` (a `KeyError` in Python). -/
def dget {α : Type} : List (String × α) → String → Option α
  | [], _ => none
  | (k', v) :: rest, k => if k' = k then some v else dget rest k

/-- Python `d[k] = v`: replace the value of the first entry with key `k`
keeping its position, or append `(k, v)` when no entry has key `k`. -/
def dset {α : Type} : List (String × α) → String → α → List (String × α)
  | [], k, v => [(k, v)]
  | (k', v') :: rest, k, v =>
      if k' = k then (k, v) :: rest else (k', v') :: dset rest k v

/-! ## The Output Normalizer: `_cleanup_juju_output`

The source is `re.sub(r"(^[^{]*)(.*)", "\\2", output, 0, re.MULTILINE)`.
Matching semantics of that substitution: matches start only at a line
start (`^` under `MULTILINE`); `[^{]*` greedily consumes every character
that is not `{`, *including newlines*; `.*` then consumes the rest of that
line (up to the next newline or the end of the text).  The substitution
keeps only the second group.  So the transformation is: from a line start,
delete everything up to the next `{` (possibly spanning whole lines), keep
from that `{` to the end of its line, keep the newline, and repeat on the
remainder; if no `{` remains, everything from the line start on is
deleted.  `cleanupAux` is that loop; the fuel argument (always at least
the length of the remaining text) only establishes termination. -/

def notOpenBrace (c : Char) : Bool := c != '{'

def notNewline (c : Char) : Bool := c != '\n'

def cleanupAux : Nat → List Char → List Char
  | 0, _ => []
  | fuel + 1, s =>
    match s.dropWhile notOpenBrace with
    | [] => []
    | c :: t =>
      match (c :: t).dropWhile notNewline with
      | [] => (c :: t).takeWhile notNewline
      | _ :: r => (c :: t).takeWhile notNewline ++ '\n' :: cleanupAux fuel r

def cleanupL (s : List Char) : List Char := cleanupAux s.length s

/-- Embeds `_cleanup_juju_output` ("Remove leading characters before `{`"). -/
def cleanup_juju_output (output : String) : String := ⟨cleanupL output.data⟩

/-! ## `_parse_option_string`

`_parse_option_string(strings)` returns `[]` when `strings` is `None` or
empty (falsy), and otherwise `[string.strip() for string in
strings.split(",")]`.  `pyIsSpace` is Python's default strip set on ASCII
(`str.isspace`); `splitComma` is Python `str.split(",")` (note that
`"".split(",") == [""]`, and empty segments are kept); `stripL` is Python
`str.strip()`: drop whitespace from the front, then from the back. -/

def pyIsSpace (c : Char) : Bool :=
  (c == ' ') || (c == '\t') || (c == '\n') || (c == '\r') || (c == '\x0b') || (c == '\x0c')

/-- Python `str.strip()` on the character list of a string. -/
def stripL (l : List Char) : List Char :=
  ((l.dropWhile pyIsSpace).reverse.dropWhile pyIsSpace).reverse

/-- Python `str.strip()`. -/
def pyStrip (s : String) : String := ⟨stripL s.data⟩

/-- Python `str.split(",")` on the character list of a string: always
returns at least one (possibly empty) segment, and keeps empty segments
between consecutive commas. -/
def splitComma : List Char → List (List Char)
  | [] => [[]]
  | c :: rest =>
    match splitComma rest with
    | [] => [[c]]
    | g :: gs => if c = ',' then [] :: g :: gs else (c :: g) :: gs

/-- Embeds `_parse_option_string` ("Parse commad separated string."). -/
def parse_option_string (strings : Option String) : List String :=
  match strings with
  | none => []
  | some s =>
    if s = "" then []
    else (splitComma s.data).map (fun g => String.mk (stripL g))

/-! ## The data model

`StatusDocument` is the parsed `juju status` payload, as far as the code
reads it: `applications` maps application names to their info (`units` is
`None` exactly when the application entry has no `"units"` key — the code
uses both `app_info.get("units", {})` and the unguarded
`juju_status["applications"][parent]["units"]` — and `subordinate_to`
models the optional `"subordinate-to"` list); a unit's info carries its
`machine` and the key list of its `subordinates` mapping (only the keys
are read: `sub_value` is unused in the source); `machines` is the key
list of the document's top-level `machines` mapping (only keys are
read). -/

structure UnitInfo where
  machine : String
  subordinates : List String
deriving Repr, DecidableEq

structure AppInfo where
  units : Option (List (String × UnitInfo))
  subordinate_to : Option (List String)
deriving Repr, DecidableEq

structure StatusDocument where
  applications : List (String × AppInfo)
  machines : List String
deriving Repr, DecidableEq

/-- The index built by `_get_model_info`: a `collections.defaultdict(dict)`
holding the three categories `apps`, `units` and `machines`, each a dict
from entity name to a list of node identifiers. -/
structure Index where
  apps : List (String × List String)
  units : List (String × List String)
  machines : List (String × List String)
deriving Repr, DecidableEq

def Index.empty : Index := ⟨[], [], []⟩

/-- The node identifier `f"{model_name}:{machine}"`. -/
def node (model_name machine : String) : String := model_name ++ ":" ++ machine

/-- Prefix test `startsWithL s pre`: does `s` begin with `pre` (Python
`s.startswith(pre)` on character lists)? -/
def startsWithL : List Char → List Char → Bool
  | _, [] => true
  | [], _ :: _ => false
  | c :: s, p :: ps => if c = p then startsWithL s ps else false

/-- Python `s.startswith(pre)`. -/
def pyStartsWith (s pre : String) : Bool := startsWithL s.data pre.data

/-! ## The three-pass Status Indexer -/

/-- The inner loop of `_add_principals_to_index`: one unit of an
application. `index["units"][unit] = [node]`,
`index["machines"][machine] = [node]`, `nodes.append(node)`. -/
def addPrincipalUnit (model_name : String) (acc : Index × List String)
    (u : String × UnitInfo) : Index × List String :=
  let machine := u.2.machine
  let nd := node model_name machine
  ({ acc.1 with
      units := dset acc.1.units u.1 [nd],
      machines := dset acc.1.machines machine [nd] },
   acc.2 ++ [nd])

/-- One application of `_add_principals_to_index`: walk
`app_info.get("units", {})` accumulating its node list, then
`index["apps"][app] = nodes`. -/
def principalStep (model_name : String) (idx : Index) (a : String × AppInfo) : Index :=
  let p := (a.2.units.getD []).foldl (addPrincipalUnit model_name) (idx, [])
  { p.1 with apps := dset p.1.apps a.1 p.2 }

/-- Embeds `_add_principals_to_index`; it assigns an `apps` entry — possibly the
empty list — for *every* application in the document. -/
def add_principals_to_index (juju_status : StatusDocument) (model_name : String)
    (index : Index) : Index :=
  juju_status.applications.foldl (principalStep model_name) index

/-- The innermost loop of `_add_subordinates_to_index`: for one unit of
the parent, record each subordinate unit key prefixed by `app + "/"`
under the parent unit's node. -/
def subUnitStep (model_name : String) (app : String) (i : Index)
    (u : String × UnitInfo) : Index :=
  let nd := node model_name u.2.machine
  u.2.subordinates.foldl
    (fun i2 sub_key =>
      if pyStartsWith sub_key (app ++ "/") then
        { i2 with units := dset i2.units sub_key [nd] }
      else i2)
    i

/-- One `parent` iteration of `_add_subordinates_to_index`.  The four
`Option` binds model the four unguarded lookups in the source:
`index["apps"][app]`, `index["apps"][parent]`,
`juju_status["applications"][parent]` and `[...]["units"]` — each raises
a `KeyError` (here `none`) when absent. -/
def addSubParent (juju_status : StatusDocument) (model_name : String) (app : String)
    (idx : Index) (parent : String) : Option Index := do
  let appNodes ← dget idx.apps app
  let parentNodes ← dget idx.apps parent
  let idx1 : Index := { idx with apps := dset idx.apps app (appNodes ++ parentNodes) }
  let parentInfo ← dget juju_status.applications parent
  let punits ← parentInfo.units
  return punits.foldl (subUnitStep model_name app) idx1

/-- One application of `_add_subordinates_to_index`: loop over
`app_info.get("subordinate-to", [])`. -/
def subAppStep (juju_status : StatusDocument) (model_name : String) (idx : Index)
    (a : String × AppInfo) : Option Index :=
  (a.2.subordinate_to.getD []).foldlM (addSubParent juju_status model_name a.1) idx

/-- Embeds `_add_subordinates_to_index`: for every application, for every parent
in `app_info.get("subordinate-to", [])`, extend the subordinate's `apps`
entry with the parent's nodes and record each subordinate unit (those
whose name starts with `app + "/"`) under the parent unit's node. -/
def add_subordinates_to_index (juju_status : StatusDocument) (model_name : String)
    (index : Index) : Option Index :=
  juju_status.applications.foldlM (subAppStep juju_status model_name) index

/-- One machine of `_add_machines_to_index`. -/
def machineStep (model_name : String) (idx : Index) (m : String) : Index :=
  { idx with machines := dset idx.machines m [node model_name m] }

/-- Embeds `_add_machines_to_index`: record a node for every machine in the
document's `machines` section. -/
def add_machines_to_index (juju_status : StatusDocument) (model_name : String)
    (index : Index) : Index :=
  juju_status.machines.foldl (machineStep model_name) index

/-- The indexing part of `_get_model_info`: the three passes in order on a
fresh `defaultdict`.  (`_get_model_info` first fetches the status; that
fetch is `execute_juju_status` below, and the parsed document is the
input here.)  `none` models the `KeyError` escaping from the subordinate
pass. -/
def get_model_info (juju_status : StatusDocument) (model_name : String) : Option Index :=
  (add_subordinates_to_index juju_status model_name
      (add_principals_to_index juju_status model_name Index.empty)).map
    (add_machines_to_index juju_status model_name)

/-! ## The Status Fetcher: `_execute_juju_status` -/

/-- The result of `exec_primary_cmd`: an exit status and captured
output. -/
structure ExecResult where
  status : Int
  output : String

/-- The command string `f"{self.cmd} status {model_option} {format_option}"`
with `model_option = f"-m {model_name}" if model_name else ""`. -/
def status_cmd (cmd model_name : String) : String :=
  let model_option := if model_name ≠ "" then "-m " ++ model_name else ""
  cmd ++ " status " ++ model_option ++ " " ++ "--format json"

/-- Embeds `_execute_juju_status`: on exit status `0`, parse the normalized
output (`json.loads` is the abstract parameter `loads`; its own parse
failure raises, modelled by `Except.error`); otherwise raise
`Exception(f"{status_cmd} did not return usable output")`. -/
def execute_juju_status (loads : String → Option StatusDocument)
    (cmd model_name : String) (res : ExecResult) : Except String StatusDocument :=
  if res.status = 0 then
    match loads (cleanup_juju_output res.output) with
    | some doc => .ok doc
    | none => .error "json.loads: invalid JSON"
  else
    .error (status_cmd cmd model_name ++ " did not return usable output")

/-! ## The Filter Resolver and Node List Assembler -/

/-- Python `re.match(pattern, param)` for the fragment of regular
expressions this profile's options exercise: an optional leading `^`
anchor followed by literal characters.  `re.match` anchors at the start
of the string and lets the match end before the end of the string, so for
a literal pattern it holds exactly when the pattern (without the
redundant anchor) is a prefix of `param`. -/
def reMatchL : List Char → List Char → Bool
  | '^' :: lit, param => startsWithL param lit
  | lit, param => startsWithL param lit

def reMatch (pattern param : String) : Bool := reMatchL pattern.data param.data

/-- Embeds `_filter_by_pattern`: union the node lists of every entry of the
category whose name `re.match`es some term.  (`nodes.update(value or [])`
adds the elements of `value`; `or []` only guards the falsy empty
list, which contributes nothing either way.) -/
def filter_by_pattern (entries : List (String × List String))
    (patterns : List String) : Finset String :=
  patterns.foldl
    (fun nodes pattern =>
      entries.foldl
        (fun nodes2 pv => if reMatch pattern pv.1 then nodes2 ∪ pv.2.toFinset else nodes2)
        nodes)
    ∅

/-- Embeds `_filter_by_fixed`: union the node lists of every entry of the
category whose name equals some term exactly. -/
def filter_by_fixed (entries : List (String × List String))
    (patterns : List String) : Finset String :=
  patterns.foldl
    (fun nodes pattern =>
      entries.foldl
        (fun nodes2 pv => if pattern = pv.1 then nodes2 ∪ pv.2.toFinset else nodes2)
        nodes)
    ∅

/-- The three per-category term lists `get_nodes` builds from the options
(the `models` option selects the groupings and is handled by the `docs`
argument of `get_nodes`). -/
structure FilterCriteria where
  apps : List String
  units : List String
  machines : List String

/-- Embeds `get_nodes`: for each requested grouping (a model name with its
fetched status document), build the index; if every filter category is
empty, contribute nothing (`if not any(filters.values()): pass`);
otherwise union in the pattern-filtered `apps` and the exactly-filtered
`units` and `machines`.  The source returns `list(nodes)` — the set in
unspecified order — so the result here is the node set itself; `none`
models an indexing `KeyError` aborting `get_nodes`. -/
def getNodesStep (filters : FilterCriteria) (nodes : Finset String)
    (md : String × StatusDocument) : Option (Finset String) := do
  let model_info ← get_model_info md.2 md.1
  if filters.apps = [] ∧ filters.units = [] ∧ filters.machines = [] then
    return nodes
  else
    return ((nodes ∪ filter_by_pattern model_info.apps filters.apps)
          ∪ filter_by_fixed model_info.units filters.units)
          ∪ filter_by_fixed model_info.machines filters.machines

def get_nodes (filters : FilterCriteria) (docs : List (String × StatusDocument)) :
    Option (Finset String) :=
  docs.foldlM (getNodesStep filters) ∅

/-- The subordinate pass's implicit precondition: every parent named in
some application's `subordinate-to` list is itself a key of the
document's `applications` mapping, and that parent's entry has a
`"units"` key. -/
def SubPrecond (st : StatusDocument) : Prop :=
  ∀ a ai, (a, ai) ∈ st.applications → ∀ parent ∈ ai.subordinate_to.getD [],
    ∃ pi, dget st.applications parent = some pi ∧ pi.units.isSome

/-! ## Concrete documents used by the claims -/

/-- The spec's end-to-end scenario: application `A` with unit `a/0` on
machine `1`, application `B` subordinate to `A`, and
`a/0.subordinates = {"B/0": {}}`. -/
def docAB : StatusDocument :=
  ⟨[("A", ⟨some [("a/0", ⟨"1", ["B/0"]⟩)], none⟩),
    ("B", ⟨none, some ["A"]⟩)], []⟩

/-- A parent `P` with unit `p/0` on machine `3` whose subordinates contain
`S/0`, and a subordinate `S` with `subordinate-to: [P]`; the machines
section is arbitrary. -/
def docPS (ms : List String) : StatusDocument :=
  ⟨[("P", ⟨some [("p/0", ⟨"3", ["S/0"]⟩)], none⟩),
    ("S", ⟨none, some ["P"]⟩)], ms⟩

/-- The document of `docPS []` extended with a second parent `P2` (unit
`q/0` on machine `7`, subordinates containing `S/0`) and
`S.subordinate-to = [P, P2]`. -/
def twoParentDoc : StatusDocument :=
  ⟨[("P", ⟨some [("p/0", ⟨"3", ["S/0"]⟩)], none⟩),
    ("P2", ⟨some [("q/0", ⟨"7", ["S/0"]⟩)], none⟩),
    ("S", ⟨none, some ["P", "P2"]⟩)], []⟩

/-- Two mutually subordinate applications, neither with a `"units"` key:
the subordinate pass's unguarded `["units"]` lookup fails here. -/
def docBad : StatusDocument :=
  ⟨[("S", ⟨none, some ["P"]⟩), ("P", ⟨none, some ["S"]⟩)], []⟩

/-- A document whose only application has neither a `units` mapping nor a
`subordinate-to` list. -/
def docA0 : StatusDocument := ⟨[("A", ⟨none, none⟩)], []⟩

/-- Applications named `web-1`, `webapp` and `database`, each with one
unit, on machines `1`, `2` and `3`. -/
def docWeb : StatusDocument :=
  ⟨[("web-1", ⟨some [("web-1/0", ⟨"1", []⟩)], none⟩),
    ("webapp", ⟨some [("webapp/0", ⟨"2", []⟩)], none⟩),
    ("database", ⟨some [("database/0", ⟨"3", []⟩)], none⟩)], []⟩

/-- A document with machines named `0`, `01` and `10` and no
applications. -/
def docNum : StatusDocument := ⟨[], ["0", "01", "10"]⟩

/-! ## Helper lemmas -/

@[simp] theorem dget_nil {α : Type} (k : String) : dget ([] : List (String × α)) k = none := rfl

@[simp] theorem dget_cons {α : Type} (k' : String) (v : α) (rest : List (String × α))
    (k : String) :
    dget ((k', v) :: rest) k = if k' = k then some v else dget rest k := rfl

/-- Lookup after assignment: the assigned key reads back the assigned
value, every other key is unchanged. -/
theorem dget_dset {α : Type} (d : List (String × α)) (k : String) (v : α) (k' : String) :
    dget (dset d k v) k' = if k = k' then some v else dget d k' := by
  induction d with
  | nil =>
      by_cases h : k = k' <;> simp [dset, dget, h]
  | cons hd tl ih =>
      obtain ⟨k₀, v₀⟩ := hd
      by_cases h0 : k₀ = k
      · subst h0
        by_cases h : k₀ = k' <;> simp [dset, dget, h]
      · by_cases h : k₀ = k'
        · subst h
          have hkk' : ¬ k = k₀ := fun he => h0 he.symm
          simp [dset, dget, h0, hkk', ih]
        · simp [dset, dget, h0, h, ih]

@[simp] theorem dget_dset_self {α : Type} (d : List (String × α)) (k : String) (v : α) :
    dget (dset d k v) k = some v := by
  simp [dget_dset]

theorem dget_dset_ne {α : Type} (d : List (String × α)) (k : String) (v : α)
    (k' : String) (h : k ≠ k') : dget (dset d k v) k' = dget d k' := by
  simp [dget_dset, h]

/-- Assignment never removes a key: if a key reads back a value before a
`dset`, it still reads back some value afterwards. -/
theorem dget_dset_isSome {α : Type} (d : List (String × α)) (k : String) (v : α)
    (k' : String) (h : (dget d k').isSome) : (dget (dset d k v) k').isSome := by
  by_cases hk : k = k'
  · subst hk; simp
  · rwa [dget_dset_ne d k v k' hk]

/-! ## List helper lemmas for `takeWhile` / `dropWhile` -/

theorem length_dropWhile_le' {α : Type} (p : α → Bool) (l : List α) :
    (l.dropWhile p).length ≤ l.length := by
  induction l with
  | nil => simp
  | cons a l ih =>
      rw [List.dropWhile_cons]
      by_cases h : p a = true
      · simp only [h, if_true]
        exact Nat.le_trans ih (Nat.le_succ _)
      · simp [h]

theorem dropWhile_eq_cons_head {α : Type} (p : α → Bool) (l : List α) (a : α) (t : List α)
    (h : l.dropWhile p = a :: t) : p a = false := by
  induction l with
  | nil => simp at h
  | cons x xs ih =>
      rw [List.dropWhile_cons] at h
      by_cases hx : p x = true
      · simp only [hx, if_true] at h
        exact ih h
      · simp only [hx, if_false] at h
        cases h
        simpa using hx

theorem takeWhile_all {α : Type} (p : α → Bool) (l : List α)
    (h : ∀ a ∈ l, p a = true) : l.takeWhile p = l := by
  induction l with
  | nil => simp
  | cons x xs ih =>
      rw [List.takeWhile_cons, h x (by simp)]
      simp only [if_true]
      rw [ih (fun a ha => h a (by simp [ha]))]

theorem dropWhile_all {α : Type} (p : α → Bool) (l : List α)
    (h : ∀ a ∈ l, p a = true) : l.dropWhile p = [] := by
  induction l with
  | nil => simp
  | cons x xs ih =>
      rw [List.dropWhile_cons, h x (by simp)]
      simp only [if_true]
      exact ih (fun a ha => h a (by simp [ha]))

theorem dropWhile_append_all {α : Type} (p : α → Bool) (l₁ l₂ : List α)
    (h : ∀ a ∈ l₁, p a = true) : (l₁ ++ l₂).dropWhile p = l₂.dropWhile p := by
  induction l₁ with
  | nil => simp
  | cons x xs ih =>
      rw [List.cons_append, List.dropWhile_cons, h x (by simp)]
      simp only [if_true]
      exact ih (fun a ha => h a (by simp [ha]))

theorem takeWhile_append_all {α : Type} (p : α → Bool) (l₁ l₂ : List α) (b : α)
    (h : ∀ a ∈ l₁, p a = true) (hb : p b = false) :
    (l₁ ++ b :: l₂).takeWhile p = l₁ := by
  induction l₁ with
  | nil => simp [List.takeWhile_cons, hb]
  | cons x xs ih =>
      rw [List.cons_append, List.takeWhile_cons, h x (by simp)]
      simp only [if_true]
      rw [ih (fun a ha => h a (by simp [ha]))]

theorem cleanupAux_nil (fuel : Nat) : cleanupAux fuel [] = [] := by
  cases fuel <;> rfl

/-- The fuel is irrelevant as long as it is at least the length of the
input. -/
theorem cleanupAux_congr : ∀ (f₁ f₂ : Nat) (s : List Char),
    s.length ≤ f₁ → s.length ≤ f₂ → cleanupAux f₁ s = cleanupAux f₂ s := by
  intro f₁
  induction f₁ with
  | zero =>
      intro f₂ s h₁ _
      have hs : s = [] := List.length_eq_zero.mp (Nat.le_zero.mp h₁)
      subst hs
      rw [cleanupAux_nil, cleanupAux_nil]
  | succ n ih =>
      intro f₂ s h₁ h₂
      cases f₂ with
      | zero =>
          have hs : s = [] := List.length_eq_zero.mp (Nat.le_zero.mp h₂)
          subst hs
          rw [cleanupAux_nil, cleanupAux_nil]
      | succ m =>
          show cleanupAux (n + 1) s = cleanupAux (m + 1) s
          simp only [cleanupAux]
          cases hd : s.dropWhile notOpenBrace with
          | nil => simp
          | cons c t =>
              cases hd2 : (c :: t).dropWhile notNewline with
              | nil => simp [hd2]
              | cons x r =>
                  have hct : (c :: t).length ≤ s.length := by
                    rw [← hd]; exact length_dropWhile_le' _ _
                  have hxr : (x :: r).length ≤ (c :: t).length := by
                    rw [← hd2]; exact length_dropWhile_le' _ _
                  have hr : r.length < s.length := by
                    have := Nat.le_trans hxr hct
                    simpa [List.length_cons] using Nat.lt_of_lt_of_le (Nat.lt_succ_self _) this
                  have hrn : r.length ≤ n := Nat.le_of_lt_succ (Nat.lt_of_lt_of_le hr h₁)
                  have hrm : r.length ≤ m := Nat.le_of_lt_succ (Nat.lt_of_lt_of_le hr h₂)
                  simp only [hd2]
                  rw [ih m r hrn hrm]

/-- One-step unfolding of `cleanupL`, independent of the fuel. -/
theorem cleanupL_eq (s : List Char) :
    cleanupL s =
      match s.dropWhile notOpenBrace with
      | [] => []
      | c :: t =>
        match (c :: t).dropWhile notNewline with
        | [] => (c :: t).takeWhile notNewline
        | _ :: r => (c :: t).takeWhile notNewline ++ '\n' :: cleanupL r := by
  cases hs : s with
  | nil => rw [cleanupL]; rw [cleanupAux_nil]; simp
  | cons a s' =>
      simp only [cleanupL, List.length_cons]
      simp only [cleanupAux]
      cases hd : (a :: s').dropWhile notOpenBrace with
      | nil => simp
      | cons c t =>
          cases hd2 : (c :: t).dropWhile notNewline with
          | nil => simp [hd2]
          | cons x r =>
              have hct : (c :: t).length ≤ (a :: s').length := by
                rw [← hd]; exact length_dropWhile_le' _ _
              have hxr : (x :: r).length ≤ (c :: t).length := by
                rw [← hd2]; exact length_dropWhile_le' _ _
              have hr : r.length < (a :: s').length := by
                have := Nat.le_trans hxr hct
                simpa [List.length_cons] using Nat.lt_of_lt_of_le (Nat.lt_succ_self _) this
              simp only [hd2]
              rw [cleanupAux_congr s'.length r.length r
                    (by simpa [List.length_cons] using Nat.le_of_lt_succ hr) (Nat.le_refl _)]

@[simp] theorem notOpenBrace_eq_true (c : Char) : notOpenBrace c = true ↔ c ≠ '{' := by
  simp [notOpenBrace]

@[simp] theorem notOpenBrace_eq_false (c : Char) : notOpenBrace c = false ↔ c = '{' := by
  simp [notOpenBrace]

@[simp] theorem notNewline_eq_true (c : Char) : notNewline c = true ↔ c ≠ '\n' := by
  simp [notNewline]

@[simp] theorem notNewline_eq_false (c : Char) : notNewline c = false ↔ c = '\n' := by
  simp [notNewline]

theorem dropWhile_eq_nil_all {α : Type} (p : α → Bool) (l : List α)
    (h : l.dropWhile p = []) : ∀ a ∈ l, p a = true := by
  induction l with
  | nil => simp
  | cons x xs ih =>
      rw [List.dropWhile_cons] at h
      by_cases hx : p x = true
      · simp only [hx, if_true] at h
        intro a ha
        rcases List.mem_cons.mp ha with rfl | ha'
        · exact hx
        · exact ih h a ha'
      · simp [hx] at h

@[simp] theorem cleanupL_nil : cleanupL [] = [] := rfl

theorem cleanupL_eq_nil (s : List Char) (h : s.dropWhile notOpenBrace = []) :
    cleanupL s = [] := by
  rw [cleanupL_eq, h]

theorem cleanupL_eq_last (s : List Char) (c : Char) (t : List Char)
    (h : s.dropWhile notOpenBrace = c :: t)
    (h2 : (c :: t).dropWhile notNewline = []) :
    cleanupL s = (c :: t).takeWhile notNewline := by
  rw [cleanupL_eq, h]
  simp [h2]

theorem cleanupL_eq_line (s : List Char) (c : Char) (t : List Char) (x : Char) (r : List Char)
    (h : s.dropWhile notOpenBrace = c :: t)
    (h2 : (c :: t).dropWhile notNewline = x :: r) :
    cleanupL s = (c :: t).takeWhile notNewline ++ '\n' :: cleanupL r := by
  rw [cleanupL_eq, h]
  simp [h2]

/-- If the text contains no `{` at all, the whole text is deleted. -/
theorem cleanupL_no_brace (s : List Char) (h : ∀ a ∈ s, a ≠ '{') : cleanupL s = [] :=
  cleanupL_eq_nil s (dropWhile_all notOpenBrace s (fun a ha => by simpa using h a ha))

/-- The retained last line: text of the shape `pre ++ '{' :: L` with no `{`
in `pre` and no newline in `L` normalizes to `'{' :: L`. -/
theorem cleanupL_last_line (pre L : List Char)
    (hpre : ∀ a ∈ pre, a ≠ '{') (hL : ∀ a ∈ L, a ≠ '\n') :
    cleanupL (pre ++ '{' :: L) = '{' :: L := by
  have hd : (pre ++ '{' :: L).dropWhile notOpenBrace = '{' :: L := by
    rw [dropWhile_append_all notOpenBrace pre ('{' :: L)
        (fun a ha => by simpa using hpre a ha)]
    rw [List.dropWhile_cons]
    simp
  have hall : ∀ a ∈ ('{' :: L), notNewline a = true := by
    intro a ha
    rcases List.mem_cons.mp ha with rfl | ha'
    · decide
    · simpa using hL a ha'
  have hdrop : ('{' :: L).dropWhile notNewline = [] := dropWhile_all notNewline _ hall
  rw [cleanupL_eq_last _ _ _ hd hdrop]
  exact takeWhile_all notNewline ('{' :: L) hall

/-- A retained inner line: text of the shape `pre ++ '{' :: L ++ '\n' :: X`
with no `{` in `pre` and no newline in `L` normalizes to
`'{' :: L ++ '\n' ::` the normalization of `X`. -/
theorem cleanupL_line (pre L X : List Char)
    (hpre : ∀ a ∈ pre, a ≠ '{') (hL : ∀ a ∈ L, a ≠ '\n') :
    cleanupL (pre ++ '{' :: (L ++ '\n' :: X)) = '{' :: L ++ '\n' :: cleanupL X := by
  have hLb : ∀ a ∈ L, notNewline a = true := fun a ha => by simpa using hL a ha
  have hd : (pre ++ '{' :: (L ++ '\n' :: X)).dropWhile notOpenBrace =
      '{' :: (L ++ '\n' :: X) := by
    rw [dropWhile_append_all notOpenBrace pre _ (fun a ha => by simpa using hpre a ha)]
    rw [List.dropWhile_cons]
    simp
  have hdrop : ('{' :: (L ++ '\n' :: X)).dropWhile notNewline = '\n' :: X := by
    rw [List.dropWhile_cons]
    have h1 : notNewline '{' = true := by decide
    rw [h1]
    simp only [if_true]
    rw [dropWhile_append_all notNewline L ('\n' :: X) hLb]
    rw [List.dropWhile_cons]
    simp
  rw [cleanupL_eq_line _ _ _ _ _ hd hdrop]
  have htake : ('{' :: (L ++ '\n' :: X)).takeWhile notNewline = '{' :: L := by
    rw [List.takeWhile_cons]
    have h1 : notNewline '{' = true := by decide
    rw [h1]
    simp only [if_true]
    rw [takeWhile_append_all notNewline L X '\n' hLb (by simp)]
  rw [htake]

/-- Idempotence of the normalizer, fuel-indexed for the induction. -/
theorem cleanupL_idem_aux : ∀ (n : Nat) (s : List Char), s.length ≤ n →
    cleanupL (cleanupL s) = cleanupL s := by
  intro n
  induction n with
  | zero =>
      intro s h
      have hs : s = [] := List.length_eq_zero.mp (Nat.le_zero.mp h)
      subst hs; simp
  | succ n ih =>
      intro s hlen
      cases hd : s.dropWhile notOpenBrace with
      | nil => rw [cleanupL_eq_nil s hd]; simp
      | cons c t =>
          have hc : c = '{' := by
            have := dropWhile_eq_cons_head notOpenBrace s c t hd
            simpa using this
          subst hc
          cases hd2 : ('{' :: t).dropWhile notNewline with
          | nil =>
              have hall : ∀ a ∈ ('{' :: t), notNewline a = true :=
                dropWhile_eq_nil_all _ _ hd2
              rw [cleanupL_eq_last s '{' t hd hd2]
              rw [takeWhile_all notNewline _ hall]
              exact cleanupL_last_line [] t (by simp)
                (fun a ha => by simpa using hall a (by simp [ha]))
          | cons x r =>
              have hx : x = '\n' := by
                have := dropWhile_eq_cons_head notNewline ('{' :: t) x r hd2
                simpa using this
              subst hx
              have htake : ('{' :: t).takeWhile notNewline =
                  '{' :: t.takeWhile notNewline := by
                rw [List.takeWhile_cons]
                have h1 : notNewline '{' = true := by decide
                rw [h1]
                simp only [if_true]
              have hL : ∀ a ∈ t.takeWhile notNewline, a ≠ '\n' := by
                intro a ha
                simpa using List.mem_takeWhile_imp ha
              have hr : r.length < s.length := by
                have h1 : ('{' :: t).length ≤ s.length := by
                  rw [← hd]; exact length_dropWhile_le' _ _
                have h2 : ('\n' :: r).length ≤ ('{' :: t).length := by
                  rw [← hd2]; exact length_dropWhile_le' _ _
                have := Nat.le_trans h2 h1
                simpa [List.length_cons] using Nat.lt_of_lt_of_le (Nat.lt_succ_self _) this
              have ihr : cleanupL (cleanupL r) = cleanupL r :=
                ih r (Nat.le_of_lt_succ (Nat.lt_of_lt_of_le hr hlen))
              rw [cleanupL_eq_line s '{' t '\n' r hd hd2, htake]
              have := cleanupL_line [] (t.takeWhile notNewline) (cleanupL r)
                (by simp) hL
              simpa [ihr] using this

/-- The normalizer on character lists is idempotent. -/
theorem cleanupL_idem (s : List Char) : cleanupL (cleanupL s) = cleanupL s :=
  cleanupL_idem_aux s.length s (Nat.le_refl _)

/-- Applying `dropWhile` twice is the same as applying it once. -/
theorem dropWhile_dropWhile {α : Type} (p : α → Bool) (l : List α) :
    (l.dropWhile p).dropWhile p = l.dropWhile p := by
  cases hd : l.dropWhile p with
  | nil => simp
  | cons a t =>
      rw [List.dropWhile_cons, dropWhile_eq_cons_head p l a t hd]
      simp

/-- Python `strip` is idempotent. -/
theorem stripL_idem (l : List Char) : stripL (stripL l) = stripL l := by
  set A := l.dropWhile pyIsSpace with hA
  set B := A.reverse.dropWhile pyIsSpace with hB
  have hBrev : B.reverse.reverse = B := by simp
  have h1 : B.reverse.dropWhile pyIsSpace = B.reverse := by
    cases hR : B.reverse with
    | nil => simp
    | cons h hs =>
        have hTB : A.reverse.takeWhile pyIsSpace ++ B = A.reverse :=
          List.takeWhile_append_dropWhile pyIsSpace A.reverse
        have hAeq : A = B.reverse ++ (A.reverse.takeWhile pyIsSpace).reverse := by
          have h2 := congrArg List.reverse hTB
          simp at h2
          exact h2.symm
        have hAcons : A = h :: (hs ++ (A.reverse.takeWhile pyIsSpace).reverse) := by
          conv_lhs => rw [hAeq]
          rw [hR]
          simp
        have hh : pyIsSpace h = false :=
          dropWhile_eq_cons_head pyIsSpace l h _ (by rw [← hA, hAcons])
        rw [List.dropWhile_cons, hh]
        simp
  show ((B.reverse.dropWhile pyIsSpace).reverse.dropWhile pyIsSpace).reverse = B.reverse
  rw [h1, hBrev, dropWhile_dropWhile]

/-- Every element produced by `_parse_option_string` is stripped: it is a
fixed point of Python `strip`. -/
theorem parse_option_string_stripped (os : Option String) (x : String)
    (hx : x ∈ parse_option_string os) : pyStrip x = x := by
  cases os with
  | none => simp [parse_option_string] at hx
  | some s =>
      by_cases hs : s = ""
      · simp [parse_option_string, hs] at hx
      · simp only [parse_option_string, if_neg hs, List.mem_map] at hx
        obtain ⟨g, _, rfl⟩ := hx
        show (⟨stripL (stripL g)⟩ : String) = ⟨stripL g⟩
        rw [stripL_idem]


/-! ## Structure of the machine pass -/

theorem machines_fold_units (g : String) :
    ∀ (l : List String) (idx : Index), (l.foldl (machineStep g) idx).units = idx.units := by
  intro l
  induction l with
  | nil => intro idx; rfl
  | cons x xs ih => intro idx; exact ih (machineStep g idx x)

theorem machines_fold_apps (g : String) :
    ∀ (l : List String) (idx : Index), (l.foldl (machineStep g) idx).apps = idx.apps := by
  intro l
  induction l with
  | nil => intro idx; rfl
  | cons x xs ih => intro idx; exact ih (machineStep g idx x)

theorem machines_fold_pres (g : String) :
    ∀ (l : List String) (idx : Index) (m : String), m ∉ l →
      dget (l.foldl (machineStep g) idx).machines m = dget idx.machines m := by
  intro l
  induction l with
  | nil => intro idx m _; rfl
  | cons x xs ih =>
      intro idx m hm
      have hx : m ≠ x := fun he => hm (he ▸ List.mem_cons_self x xs)
      have hxs : m ∉ xs := fun he => hm (List.mem_cons_of_mem x he)
      rw [List.foldl_cons, ih (machineStep g idx x) m hxs]
      show dget (dset idx.machines x [node g x]) m = dget idx.machines m
      exact dget_dset_ne _ _ _ _ (fun he => hx he.symm)

/-- After the machine pass, every machine of the traversed list reads back
exactly its own node. -/
theorem machines_fold_mem (g : String) :
    ∀ (l : List String) (idx : Index) (m : String), m ∈ l →
      dget (l.foldl (machineStep g) idx).machines m = some [node g m] := by
  intro l
  induction l with
  | nil => intro idx m hm; simp at hm
  | cons x xs ih =>
      intro idx m hm
      by_cases hxs : m ∈ xs
      · exact ih (machineStep g idx x) m hxs
      · have hx : m = x := by
          rcases List.mem_cons.mp hm with h | h
          · exact h
          · exact absurd h hxs
        subst hx
        rw [List.foldl_cons, machines_fold_pres g xs (machineStep g idx m) m hxs]
        show dget (dset idx.machines m [node g m]) m = some [node g m]
        exact dget_dset_self _ _ _

theorem add_machines_units (st : StatusDocument) (g : String) (idx : Index) :
    (add_machines_to_index st g idx).units = idx.units :=
  machines_fold_units g st.machines idx

theorem add_machines_apps (st : StatusDocument) (g : String) (idx : Index) :
    (add_machines_to_index st g idx).apps = idx.apps :=
  machines_fold_apps g st.machines idx

/-! ## Structure of the Node List Assembler -/

/-- With every filter category empty, one grouping step returns the
accumulator unchanged (when its index builds at all). -/
theorem getNodesStep_empty (filters : FilterCriteria) (nodes r : Finset String)
    (md : String × StatusDocument)
    (ha : filters.apps = []) (hu : filters.units = []) (hm : filters.machines = [])
    (h : getNodesStep filters nodes md = some r) : r = nodes := by
  rw [getNodesStep] at h
  cases hmi : get_model_info md.2 md.1 with
  | none => rw [hmi] at h; simp at h
  | some mi =>
      rw [hmi] at h
      simp only [Option.some_bind, ha, hu, hm, and_self, if_true] at h
      exact (Option.some.injEq _ _ ▸ h).symm

/-- With every filter category empty, the whole fold returns the initial
accumulator unchanged. -/
theorem get_nodes_fold_empty (filters : FilterCriteria)
    (ha : filters.apps = []) (hu : filters.units = []) (hm : filters.machines = []) :
    ∀ (docs : List (String × StatusDocument)) (acc r : Finset String),
      docs.foldlM (getNodesStep filters) acc = some r → r = acc := by
  intro docs
  induction docs with
  | nil =>
      intro acc r h
      simp [List.foldlM] at h
      exact h.symm
  | cons md tl ih =>
      intro acc r h
      rw [List.foldlM_cons] at h
      cases hst : getNodesStep filters acc md with
      | none => rw [hst] at h; simp at h
      | some acc2 =>
          rw [hst] at h
          simp only [Option.bind_eq_bind, Option.some_bind] at h
          have h2 := ih acc2 r h
          rw [h2]
          exact getNodesStep_empty filters acc acc2 md ha hu hm hst

/-! ## The claims -/

/-- C1, as frozen, is false: in `twoParentDoc` the claim's hypotheses hold
(parent `P` has unit `p/0` on machine `3` with `S/0` among its
subordinates, and `S` is subordinate to `P`), yet a second parent `P2`
processed later overwrites `units["S/0"]` with `g:7`, so `units["S/0"]`
differs from `units["p/0"] = [g:3]`. -/
theorem subordinate_two_parents_cex :
    (get_model_info twoParentDoc "g").map
        (fun idx => (dget idx.units "S/0", dget idx.units "p/0")) =
      some (some ["g:7"], some ["g:3"])
  ∧ (some ["g:7"] : Option (List String)) ≠ some ["g:3"] := by
  constructor
  · decide
  · decide

/-- C1 (amended): for the document whose applications are exactly the
parent `P` (unit `p/0` on machine `3`, subordinates containing `S/0`) and
the subordinate `S` (`subordinate-to: [P]`), for every grouping `g` and
machines section, the Index maps `units["S/0"]` and `units["p/0"]` to the
same node `g:3`, and `apps["S"]` contains that node (it equals
`[g:3]`). -/
theorem subordinate_resolution_amended (g : String) (ms : List String) :
    (get_model_info (docPS ms) g).map
      (fun idx => (dget idx.units "S/0", dget idx.units "p/0", (dget idx.apps "S").getD [])) =
    some (some [node g "3"], some [node g "3"], [node g "3"]) := by
  have h12 : add_subordinates_to_index (docPS ms) g
      (add_principals_to_index (docPS ms) g Index.empty) =
      some ⟨[("P", [node g "3"]), ("S", [node g "3"])],
            [("p/0", [node g "3"]), ("S/0", [node g "3"])],
            [("3", [node g "3"])]⟩ := rfl
  simp only [get_model_info, h12, Option.map_some']
  have hu : ∀ idx, (add_machines_to_index (docPS ms) g idx).units = idx.units :=
    fun idx => add_machines_units (docPS ms) g idx
  have ha : ∀ idx, (add_machines_to_index (docPS ms) g idx).apps = idx.apps :=
    fun idx => add_machines_apps (docPS ms) g idx
  rw [hu, ha]
  simp [dget]

/-- C2: if every category's term list is empty, `get_nodes` adds zero
nodes from every grouping: whatever documents the groupings produced, the
returned node set is empty. -/
theorem empty_filters_no_nodes (filters : FilterCriteria)
    (docs : List (String × StatusDocument)) (r : Finset String)
    (ha : filters.apps = []) (hu : filters.units = []) (hm : filters.machines = [])
    (h : get_nodes filters docs = some r) : r = ∅ :=
  get_nodes_fold_empty filters ha hu hm docs ∅ r h

/-- Witness for C2 at a concrete grouping: the `A`/`B` document with all
filters empty yields the empty node set. -/
theorem empty_filters_no_nodes_witness : (∅ : Finset String) = ∅ :=
  empty_filters_no_nodes ⟨[], [], []⟩ [("model1", docAB)] ∅ rfl rfl rfl (by decide)

/-- C3: the `apps` category matches terms as start-anchored regular
expressions, partial at the end (`^web` selects `web-1` and `webapp` but
not `database`, and `web` does not match `myweb` since matching must
start at the beginning), while `units` and `machines` match by string
equality only (`0` selects exactly the entity named `0`); `get_nodes`
dispatches `apps` to the pattern filter and `machines` to the exact
filter. -/
theorem filter_matching_policies :
    (reMatch "^web" "web-1" = true ∧ reMatch "^web" "webapp" = true
      ∧ reMatch "^web" "database" = false ∧ reMatch "web" "myweb" = false)
  ∧ filter_by_pattern [("web-1", ["n1"]), ("webapp", ["n2"]), ("database", ["n3"])] ["^web"]
      = {"n1", "n2"}
  ∧ filter_by_fixed [("0", ["a0"]), ("10", ["a10"]), ("01", ["a01"])] ["0"] = {"a0"}
  ∧ (∀ (name : String) (nodes : List String), name ≠ "0" →
        filter_by_fixed [(name, nodes)] ["0"] = ∅)
  ∧ get_nodes ⟨["^web"], [], []⟩ [("g", docWeb)] = some {"g:1", "g:2"}
  ∧ get_nodes ⟨[], [], ["0"]⟩ [("g", docNum)] = some {"g:0"} := by
  refine ⟨by decide, by decide, by decide, ?_, by decide, by decide⟩
  intro name nodes h
  have h' : ¬ ("0" = name) := fun he => h he.symm
  simp [filter_by_fixed, h']

/-- C4, as frozen, is false: for input whose first line already begins the
payload, later lines are not returned unchanged — a subsequent line
without a `{` is deleted entirely (`"{a}\nbc"` normalizes to
`"{a}\n"`). -/
theorem cleanup_drops_nonbrace_line_cex :
    cleanup_juju_output "{a}\nbc" = "{a}\n"
  ∧ cleanup_juju_output "{a}\nbc" ≠ "{a}\nbc" := by
  constructor
  · decide
  · decide

/-- C4 (amended): the normalizer deletes everything (including whole
lines) up to the first `{`, keeps from that `{` to the end of its line,
and repeats on the remainder; so the text before the first `{` is
discarded and a single-line payload is returned intact, but a subsequent
line survives byte-for-byte only from its own first `{` on, and text with
no `{` at all is deleted. -/
theorem cleanup_line_structure_amended :
    (∀ pre suf : List Char, (∀ a ∈ pre, a ≠ '{') → (∀ a ∈ suf, a ≠ '\n') →
        cleanupL (pre ++ '{' :: suf) = '{' :: suf)
  ∧ (∀ pre L X : List Char, (∀ a ∈ pre, a ≠ '{') → (∀ a ∈ L, a ≠ '\n') →
        cleanupL (pre ++ '{' :: (L ++ '\n' :: X)) = '{' :: L ++ '\n' :: cleanupL X)
  ∧ (∀ s : List Char, (∀ a ∈ s, a ≠ '{') → cleanupL s = [])
  ∧ (∀ s : String, cleanup_juju_output s = ⟨cleanupL s.data⟩) :=
  ⟨cleanupL_last_line, cleanupL_line, cleanupL_no_brace, fun _ => rfl⟩

/-- C5: the Output Normalizer is idempotent — normalizing the output of
normalization returns it unchanged, for every input string. -/
theorem cleanup_idempotent (s : String) :
    cleanup_juju_output (cleanup_juju_output s) = cleanup_juju_output s := by
  show (⟨cleanupL (cleanupL s.data)⟩ : String) = ⟨cleanupL s.data⟩
  rw [cleanupL_idem]

/-- C6: a non-zero exit status raises an error whose message names the
failing status command (so discovery cannot proceed: no document is ever
produced), and a zero exit status parses the normalized output into the
returned document. -/
theorem execute_status_error_handling :
    (∀ (loads : String → Option StatusDocument) (cmd model_name : String) (res : ExecResult),
        res.status ≠ 0 →
        execute_juju_status loads cmd model_name res =
          Except.error (status_cmd cmd model_name ++ " did not return usable output"))
  ∧ (∀ (loads : String → Option StatusDocument) (cmd model_name : String)
        (res : ExecResult) (doc : StatusDocument), res.status ≠ 0 →
        execute_juju_status loads cmd model_name res ≠ Except.ok doc)
  ∧ (∀ (loads : String → Option StatusDocument) (cmd model_name : String)
        (res : ExecResult) (doc : StatusDocument), res.status = 0 →
        loads (cleanup_juju_output res.output) = some doc →
        execute_juju_status loads cmd model_name res = Except.ok doc) := by
  refine ⟨?_, ?_, ?_⟩
  · intro loads cmd model_name res h
    simp [execute_juju_status, h]
  · intro loads cmd model_name res doc h
    simp [execute_juju_status, h]
  · intro loads cmd model_name res doc h hl
    simp [execute_juju_status, h, hl]

/-- C7, as frozen, is false: a trailing comma produces an empty element,
so the parsed list is not made of non-empty strings. -/
theorem parse_option_empty_element_cex :
    parse_option_string (some "a,") = ["a", ""]
  ∧ "" ∈ parse_option_string (some "a,") := by
  constructor
  · decide
  · decide

/-- C7 (amended): an absent or empty option string yields the empty list,
and every element of the result is trimmed (a fixed point of Python
`strip`, hence with no leading or trailing whitespace) — but elements may
be empty when the input has empty segments. -/
theorem parse_option_trimmed_amended :
    (parse_option_string none = [] ∧ parse_option_string (some "") = [])
  ∧ (∀ (os : Option String) (x : String), x ∈ parse_option_string os → pyStrip x = x) :=
  ⟨⟨rfl, rfl⟩, parse_option_string_stripped⟩

/-- C9: every machine of the document's `machines` section ends up in the
Index's `machines` category mapped to exactly its node `g:m` (the machine
pass runs last and overwrites), and the machine-only end-to-end scenario
follows: a document with machines `{"5": {}}` and no applications,
filtered by `machines = ["5"]`, yields exactly the node `g:5` for every
grouping `g`. -/
theorem machine_pass_complete :
    (∀ (st : StatusDocument) (g : String) (idx : Index),
        get_model_info st g = some idx →
        ∀ m ∈ st.machines, dget idx.machines m = some [node g m])
  ∧ (∀ g : String, get_nodes ⟨[], [], ["5"]⟩ [(g, ⟨[], ["5"]⟩)] = some {node g "5"}) := by
  constructor
  · intro st g idx h m hm
    obtain ⟨idx0, h0, hidx⟩ := Option.map_eq_some'.mp h
    subst hidx
    exact machines_fold_mem g st.machines idx0 m hm
  · intro g
    have h1 : get_model_info ⟨[], ["5"]⟩ g = some ⟨[], [], [("5", [node g "5"])]⟩ := rfl
    simp [get_nodes, List.foldlM, getNodesStep, h1, filter_by_fixed, filter_by_pattern]

/-! ## Structure of the principal pass -/

theorem dget_some_mem {α : Type} : ∀ (l : List (String × α)) (k : String) (v : α),
    dget l k = some v → (k, v) ∈ l := by
  intro l
  induction l with
  | nil => intro k v h; simp at h
  | cons hd tl ih =>
      intro k v h
      obtain ⟨k', v'⟩ := hd
      rw [dget_cons] at h
      by_cases hk : k' = k
      · rw [if_pos hk] at h
        subst hk
        rw [Option.some.injEq] at h
        subst h
        exact List.mem_cons_self _ _
      · rw [if_neg hk] at h
        exact List.mem_cons_of_mem _ (ih k v h)

/-- With keys unique, an association list determines values: two entries
with the same key are the same entry. -/
theorem nodup_keys_val_eq {α : Type} :
    ∀ (l : List (String × α)) (k : String) (v₁ v₂ : α),
      (l.map Prod.fst).Nodup → (k, v₁) ∈ l → (k, v₂) ∈ l → v₁ = v₂ := by
  intro l
  induction l with
  | nil => intro k v₁ v₂ _ h1 _; simp at h1
  | cons hd tl ih =>
      intro k v₁ v₂ hnd h1 h2
      obtain ⟨b, ib⟩ := hd
      rw [List.map_cons, List.nodup_cons] at hnd
      rcases List.mem_cons.mp h1 with he1 | ht1
      · rcases List.mem_cons.mp h2 with he2 | ht2
        · rw [Prod.mk.injEq] at he1 he2
          rw [he1.2, he2.2]
        · exfalso
          rw [Prod.mk.injEq] at he1
          have hk : k ∈ tl.map Prod.fst := List.mem_map_of_mem Prod.fst ht2
          rw [he1.1] at hk
          exact hnd.1 hk
      · rcases List.mem_cons.mp h2 with he2 | ht2
        · exfalso
          rw [Prod.mk.injEq] at he2
          have hk : k ∈ tl.map Prod.fst := List.mem_map_of_mem Prod.fst ht1
          rw [he2.1] at hk
          exact hnd.1 hk
        · exact ih k v₁ v₂ hnd.2 ht1 ht2

/-- The unit loop of the principal pass never touches the `apps`
category. -/
theorem principalUnits_fold_apps (g : String) :
    ∀ (units : List (String × UnitInfo)) (idx : Index) (ns : List String),
      ((units.foldl (addPrincipalUnit g) (idx, ns)).1).apps = idx.apps := by
  intro units
  induction units with
  | nil => intro idx ns; rfl
  | cons u us ih =>
      intro idx ns
      rw [List.foldl_cons]
      exact ih _ _

theorem principalStep_apps_ne (g : String) (idx : Index) (a : String × AppInfo) (k : String)
    (h : a.1 ≠ k) : dget (principalStep g idx a).apps k = dget idx.apps k := by
  show dget (dset ((a.2.units.getD []).foldl (addPrincipalUnit g) (idx, [])).1.apps a.1
      ((a.2.units.getD []).foldl (addPrincipalUnit g) (idx, [])).2) k = dget idx.apps k
  rw [dget_dset_ne _ _ _ _ h, principalUnits_fold_apps g _ idx []]

theorem principal_fold_apps_not_mem (g : String) :
    ∀ (l : List (String × AppInfo)) (idx : Index) (k : String),
      k ∉ l.map Prod.fst →
      dget (l.foldl (principalStep g) idx).apps k = dget idx.apps k := by
  intro l
  induction l with
  | nil => intro idx k _; rfl
  | cons a tl ih =>
      intro idx k hk
      have h1 : a.1 ≠ k := by
        intro he
        exact hk (by rw [List.map_cons]; exact he ▸ List.mem_cons_self _ _)
      have h2 : k ∉ tl.map Prod.fst := by
        intro he
        exact hk (by rw [List.map_cons]; exact List.mem_cons_of_mem _ he)
      rw [List.foldl_cons, ih _ k h2, principalStep_apps_ne g idx a k h1]

/-- An application with no `"units"` key gets the empty node list as its
`apps` entry in the principal pass. -/
theorem principal_fold_apps_none (g : String) :
    ∀ (l : List (String × AppInfo)) (idx : Index) (app : String) (sub : Option (List String)),
      (l.map Prod.fst).Nodup → (app, AppInfo.mk none sub) ∈ l →
      dget (l.foldl (principalStep g) idx).apps app = some [] := by
  intro l
  induction l with
  | nil => intro idx app sub _ h; simp at h
  | cons a tl ih =>
      intro idx app sub hnd hmem
      rw [List.map_cons, List.nodup_cons] at hnd
      rcases List.mem_cons.mp hmem with he | ht
      · have ha1 : a.1 = app := by rw [← he]
        have happ : app ∉ tl.map Prod.fst := ha1 ▸ hnd.1
        rw [List.foldl_cons, principal_fold_apps_not_mem g tl _ app happ, ← he]
        show dget (dset idx.apps app []) app = some []
        exact dget_dset_self _ _ _
      · exact ih _ app sub hnd.2 ht

theorem principalStep_apps_isSome (g : String) (idx : Index) (a : String × AppInfo)
    (k : String) (h : (dget idx.apps k).isSome) :
    (dget (principalStep g idx a).apps k).isSome := by
  show (dget (dset ((a.2.units.getD []).foldl (addPrincipalUnit g) (idx, [])).1.apps a.1
      ((a.2.units.getD []).foldl (addPrincipalUnit g) (idx, [])).2) k).isSome
  apply dget_dset_isSome
  rw [principalUnits_fold_apps g _ idx []]
  exact h

theorem principal_fold_apps_isSome_mono (g : String) :
    ∀ (l : List (String × AppInfo)) (idx : Index) (k : String),
      (dget idx.apps k).isSome →
      (dget (l.foldl (principalStep g) idx).apps k).isSome := by
  intro l
  induction l with
  | nil => intro idx k h; exact h
  | cons a tl ih =>
      intro idx k h
      rw [List.foldl_cons]
      exact ih _ k (principalStep_apps_isSome g idx a k h)

/-- Every application of the document has an `apps` entry after the
principal pass. -/
theorem principal_fold_apps_key (g : String) :
    ∀ (l : List (String × AppInfo)) (idx : Index) (k : String),
      k ∈ l.map Prod.fst →
      (dget (l.foldl (principalStep g) idx).apps k).isSome := by
  intro l
  induction l with
  | nil => intro idx k h; simp at h
  | cons a tl ih =>
      intro idx k hk
      rw [List.foldl_cons]
      by_cases ht : k ∈ tl.map Prod.fst
      · exact ih _ k ht
      · have ha : a.1 = k := by
          rw [List.map_cons] at hk
          rcases List.mem_cons.mp hk with he | he
          · exact he.symm
          · exact absurd he ht
        apply principal_fold_apps_isSome_mono
        show (dget (dset ((a.2.units.getD []).foldl (addPrincipalUnit g) (idx, [])).1.apps a.1
            ((a.2.units.getD []).foldl (addPrincipalUnit g) (idx, [])).2) k).isSome
        rw [ha, dget_dset_self]
        rfl

/-! ## Structure of the subordinate pass -/

/-- The subordinate-unit recording loop never touches the `apps`
category. -/
theorem subFold_units_only_apps (app nd : String) :
    ∀ (subs : List String) (i : Index),
      (subs.foldl
        (fun i2 sub_key =>
          if pyStartsWith sub_key (app ++ "/") then
            { i2 with units := dset i2.units sub_key [nd] }
          else i2) i).apps = i.apps := by
  intro subs
  induction subs with
  | nil => intro i; rfl
  | cons s ss ih =>
      intro i
      rw [List.foldl_cons]
      by_cases hs : pyStartsWith s (app ++ "/") = true
      · rw [if_pos hs]
        exact ih _
      · rw [if_neg hs]
        exact ih _

theorem subUnitStep_apps (g app : String) (i : Index) (u : String × UnitInfo) :
    (subUnitStep g app i u).apps = i.apps :=
  subFold_units_only_apps app (node g u.2.machine) u.2.subordinates i

theorem subUnits_fold_apps (g app : String) :
    ∀ (punits : List (String × UnitInfo)) (i : Index),
      (punits.foldl (subUnitStep g app) i).apps = i.apps := by
  intro punits
  induction punits with
  | nil => intro i; rfl
  | cons u us ih =>
      intro i
      rw [List.foldl_cons, ih _, subUnitStep_apps g app i u]

/-- Shape of a successful `addSubParent`: its `apps` component is exactly
the subordinate's extension on top of the input index. -/
theorem addSubParent_some_apps (st : StatusDocument) (g a : String) (idx : Index)
    (parent : String) (idx2 : Index)
    (h : addSubParent st g a idx parent = some idx2) :
    ∃ appNodes parentNodes,
      dget idx.apps a = some appNodes ∧ dget idx.apps parent = some parentNodes ∧
      idx2.apps = dset idx.apps a (appNodes ++ parentNodes) := by
  rw [addSubParent] at h
  simp only [Option.bind_eq_bind] at h
  obtain ⟨appNodes, h1, h⟩ := Option.bind_eq_some.mp h
  obtain ⟨parentNodes, h2, h⟩ := Option.bind_eq_some.mp h
  obtain ⟨pinfo, h3, h⟩ := Option.bind_eq_some.mp h
  obtain ⟨punits, h4, h⟩ := Option.bind_eq_some.mp h
  simp only [Option.pure_def, Option.some.injEq] at h
  refine ⟨appNodes, parentNodes, h1, h2, ?_⟩
  rw [← h]
  exact subUnits_fold_apps g a punits _

theorem addSubParent_apps_ne (st : StatusDocument) (g a : String) (idx : Index)
    (parent : String) (idx2 : Index) (h : addSubParent st g a idx parent = some idx2)
    (k : String) (hk : a ≠ k) : dget idx2.apps k = dget idx.apps k := by
  obtain ⟨A, B, _, _, happs⟩ := addSubParent_some_apps st g a idx parent idx2 h
  rw [happs]
  exact dget_dset_ne _ _ _ _ hk

theorem addSubParent_apps_isSome (st : StatusDocument) (g a : String) (idx : Index)
    (parent : String) (idx2 : Index) (h : addSubParent st g a idx parent = some idx2)
    (k : String) (hk : (dget idx.apps k).isSome) : (dget idx2.apps k).isSome := by
  obtain ⟨A, B, _, _, happs⟩ := addSubParent_some_apps st g a idx parent idx2 h
  rw [happs]
  exact dget_dset_isSome _ _ _ _ hk

theorem subParents_fold_apps_ne (st : StatusDocument) (g a : String) :
    ∀ (parents : List String) (idx idx' : Index),
      parents.foldlM (addSubParent st g a) idx = some idx' →
      ∀ k, a ≠ k → dget idx'.apps k = dget idx.apps k := by
  intro parents
  induction parents with
  | nil =>
      intro idx idx' h k _
      simp only [List.foldlM_nil, Option.pure_def, Option.some.injEq] at h
      rw [← h]
  | cons p ps ih =>
      intro idx idx' h k hk
      rw [List.foldlM_cons] at h
      simp only [Option.bind_eq_bind] at h
      obtain ⟨idxm, h1, h2⟩ := Option.bind_eq_some.mp h
      rw [ih idxm idx' h2 k hk]
      exact addSubParent_apps_ne st g a idx p idxm h1 k hk

/-- The subordinate pass leaves the `apps` entry of an application that
never occurs with a non-empty `subordinate-to` list unchanged. -/
theorem subApps_fold_apps_pres (st : StatusDocument) (g app : String) :
    ∀ (l : List (String × AppInfo)) (idx idx' : Index),
      (∀ ai, (app, ai) ∈ l → ai.subordinate_to.getD [] = []) →
      l.foldlM (subAppStep st g) idx = some idx' →
      dget idx'.apps app = dget idx.apps app := by
  intro l
  induction l with
  | nil =>
      intro idx idx' _ h
      simp only [List.foldlM_nil, Option.pure_def, Option.some.injEq] at h
      rw [← h]
  | cons a tl ih =>
      intro idx idx' hl h
      rw [List.foldlM_cons] at h
      simp only [Option.bind_eq_bind] at h
      obtain ⟨idxm, h1, h2⟩ := Option.bind_eq_some.mp h
      have htl : ∀ ai, (app, ai) ∈ tl → ai.subordinate_to.getD [] = [] :=
        fun ai hai => hl ai (List.mem_cons_of_mem _ hai)
      rw [ih idxm idx' htl h2]
      by_cases hb : a.1 = app
      · have hsub : a.2.subordinate_to.getD [] = [] := by
          apply hl a.2
          have hae : a = (app, a.2) := by
            rw [← hb]
          rw [← hae]
          exact List.mem_cons_self _ _
        rw [subAppStep, hsub] at h1
        simp only [List.foldlM_nil, Option.pure_def, Option.some.injEq] at h1
        rw [← h1]
      · exact subParents_fold_apps_ne st g a.1 (a.2.subordinate_to.getD []) idx idxm h1 app hb

/-- One parent list of the subordinate pass succeeds when the
subordinate's and every parent's `apps` entries exist and every parent's
document entry has a `"units"` key; all existing `apps` entries
survive. -/
theorem subParents_fold_total (st : StatusDocument) (g a : String) :
    ∀ (parents : List String) (idx : Index),
      (dget idx.apps a).isSome →
      (∀ p ∈ parents, (dget idx.apps p).isSome) →
      (∀ p ∈ parents, ∃ pi, dget st.applications p = some pi ∧ pi.units.isSome) →
      ∃ idx', parents.foldlM (addSubParent st g a) idx = some idx' ∧
        (∀ k, (dget idx.apps k).isSome → (dget idx'.apps k).isSome) := by
  intro parents
  induction parents with
  | nil =>
      intro idx _ _ _
      exact ⟨idx, rfl, fun k h => h⟩
  | cons p ps ih =>
      intro idx ha hps hdoc
      obtain ⟨A, hA⟩ := Option.isSome_iff_exists.mp ha
      obtain ⟨B, hB⟩ := Option.isSome_iff_exists.mp (hps p (List.mem_cons_self _ _))
      obtain ⟨pi, hpi, hpu⟩ := hdoc p (List.mem_cons_self _ _)
      obtain ⟨U, hU⟩ := Option.isSome_iff_exists.mp hpu
      have hstep : addSubParent st g a idx p =
          some (U.foldl (subUnitStep g a)
            { idx with apps := dset idx.apps a (A ++ B) }) := by
        rw [addSubParent]
        simp only [hA, hB, hpi, hU, Option.bind_eq_bind, Option.some_bind]
        rfl
      have mono1 : ∀ k, (dget idx.apps k).isSome →
          (dget (U.foldl (subUnitStep g a)
            { idx with apps := dset idx.apps a (A ++ B) }).apps k).isSome := by
        intro k hk
        rw [subUnits_fold_apps g a U _]
        exact dget_dset_isSome _ _ _ _ hk
      obtain ⟨idx', hfold, mono2⟩ := ih
        (U.foldl (subUnitStep g a) { idx with apps := dset idx.apps a (A ++ B) })
        (mono1 a ha)
        (fun q hq => mono1 q (hps q (List.mem_cons_of_mem _ hq)))
        (fun q hq => hdoc q (List.mem_cons_of_mem _ hq))
      refine ⟨idx', ?_, fun k hk => mono2 k (mono1 k hk)⟩
      rw [List.foldlM_cons]
      simp only [Option.bind_eq_bind, hstep, Option.some_bind]
      exact hfold

/-- The whole subordinate pass succeeds on any index whose `apps`
category covers every application key, provided the precondition
holds. -/
theorem subApps_fold_total (st : StatusDocument) (g : String) (hpre : SubPrecond st) :
    ∀ (l : List (String × AppInfo)) (idx : Index),
      (∀ x ∈ l, x ∈ st.applications) →
      (∀ k, k ∈ st.applications.map Prod.fst → (dget idx.apps k).isSome) →
      ∃ idx', l.foldlM (subAppStep st g) idx = some idx' := by
  intro l
  induction l with
  | nil => intro idx _ _; exact ⟨idx, rfl⟩
  | cons a tl ih =>
      intro idx hsub hinv
      have hast : a ∈ st.applications := hsub a (List.mem_cons_self _ _)
      have ha : (dget idx.apps a.1).isSome :=
        hinv a.1 (List.mem_map_of_mem Prod.fst hast)
      have hdoc : ∀ p ∈ a.2.subordinate_to.getD [],
          ∃ pi, dget st.applications p = some pi ∧ pi.units.isSome := by
        intro p hp
        exact hpre a.1 a.2 hast p hp
      have hps : ∀ p ∈ a.2.subordinate_to.getD [], (dget idx.apps p).isSome := by
        intro p hp
        obtain ⟨pi, hpi, _⟩ := hdoc p hp
        exact hinv p (List.mem_map_of_mem Prod.fst (dget_some_mem st.applications p pi hpi))
      obtain ⟨idx1, hfold1, mono1⟩ :=
        subParents_fold_total st g a.1 (a.2.subordinate_to.getD []) idx ha hps hdoc
      obtain ⟨idx', hfold'⟩ := ih idx1
        (fun x hx => hsub x (List.mem_cons_of_mem _ hx))
        (fun k hk => mono1 k (hinv k hk))
      refine ⟨idx', ?_⟩
      rw [List.foldlM_cons]
      have hstep : subAppStep st g idx a = some idx1 := hfold1
      simp only [Option.bind_eq_bind, hstep, Option.some_bind]
      exact hfold'

/-- C8, as frozen, is false: for the document whose only application `A`
has neither a `units` mapping nor a `subordinate-to` list, the name `A`
*is* a key of the Index's `apps` category — the principal pass assigns
`index["apps"][app] = nodes` for every application, here the empty list —
so it is not omitted. -/
theorem app_without_units_key_present_cex :
    (get_model_info docA0 "m").map (fun idx => dget idx.apps "A") = some (some [])
  ∧ (some ([] : List String) : Option (List String)) ≠ none := by
  constructor
  · decide
  · decide

/-- C8 (amended): for every document with unique application names (as a
parsed dictionary guarantees), an application with neither a `units`
mapping nor a `subordinate-to` list appears in `apps` mapped to the
*empty* node list — it is a key, contributes no nodes, and this is not an
error (indexing still succeeds on such a document, as the witness
evaluates). -/
theorem app_without_units_empty_entry (st : StatusDocument) (g : String) (app : String)
    (hnd : (st.applications.map Prod.fst).Nodup)
    (hmem : (app, AppInfo.mk none none) ∈ st.applications)
    (idx : Index) (h : get_model_info st g = some idx) :
    dget idx.apps app = some [] := by
  obtain ⟨idx0, h0, hidx⟩ := Option.map_eq_some'.mp h
  subst hidx
  rw [add_machines_apps]
  have hpre : ∀ ai, (app, ai) ∈ st.applications → ai.subordinate_to.getD [] = [] := by
    intro ai hai
    have he : ai = AppInfo.mk none none :=
      nodup_keys_val_eq st.applications app ai (AppInfo.mk none none) hnd hai hmem
    rw [he]
    rfl
  rw [subApps_fold_apps_pres st g app st.applications _ idx0 hpre h0]
  exact principal_fold_apps_none g st.applications Index.empty app none hnd hmem

/-- Witness for C8 (amended) at the concrete one-application document. -/
theorem app_without_units_empty_entry_witness :
    dget (Index.mk [("A", [])] [] []).apps "A" = some [] :=
  app_without_units_empty_entry docA0 "m" "A" (by decide) (by decide)
    ⟨[("A", [])], [], []⟩ (by decide)

/-- C10: index construction is total under the precondition that every
parent named in a `subordinate-to` list is an application key whose entry
has a `"units"` key; and the precondition is needed — on `docBad`, where
each of the two applications names the other as parent and neither has a
`"units"` key, the unguarded `["units"]` lookup fails and indexing
produces no index (a `KeyError` in Python). -/
theorem subordinate_pass_totality :
    (∀ (st : StatusDocument) (g : String), SubPrecond st → (get_model_info st g).isSome)
  ∧ get_model_info docBad "m" = none
  ∧ ¬ SubPrecond docBad := by
  refine ⟨?_, by decide, ?_⟩
  · intro st g hpre
    obtain ⟨idx', hfold⟩ :=
      subApps_fold_total st g hpre st.applications
        (add_principals_to_index st g Index.empty) (fun x hx => hx)
        (fun k hk => principal_fold_apps_key g st.applications Index.empty k hk)
    have hsub : add_subordinates_to_index st g
        (add_principals_to_index st g Index.empty) = some idx' := hfold
    rw [get_model_info, hsub]
    rfl
  · intro h
    obtain ⟨pi, hpi, hpu⟩ :=
      h "S" ⟨none, some ["P"]⟩ (by decide) "P" (by decide)
    have hd : dget docBad.applications "P" = some (AppInfo.mk none (some ["S"])) := by
      decide
    rw [hd, Option.some.injEq] at hpi
    rw [← hpi] at hpu
    simp at hpu

end JujuSpec
